import Mathlib

/-!
Shallow embedding of the anchor/box geometry and proposal-selection pipeline
of `rpn.py` (region proposal network): the box codec (`encode`/`decode`),
reference-anchor generation (`generate_anchors_reference`), anchor grid
tiling (`generate_anchors`), and the proposal pipeline of `build_rpn`
(boundary filter, decode, area filter, top-k, non-maximum suppression).

Box coordinates are modelled over the real numbers where the source uses
transcendental functions (`log`, `exp`, `sqrt`), and generically over a
linear ordered field elsewhere, so that the order-dependent pipeline stages
are executable (e.g. over the rationals).
-/

namespace RPN

/-- A bounding box `(x_min, y_min, x_max, y_max)`, one row of an `(n, 4)`
box array of `rpn.py`. -/
@[ext]
structure Box (α : Type) where
  x1 : α
  y1 : α
  x2 : α
  y2 : α
deriving DecidableEq

/-- One row of bounding-box regression deltas `(dx, dy, dw, dh)`, a row of
the `(n, 4)` offset array produced by the RPN head. -/
@[ext]
structure Delta (α : Type) where
  dx : α
  dy : α
  dw : α
  dh : α
deriving DecidableEq

variable {α : Type} [LinearOrderedField α]

/-- Model of `get_width_upright` of `rpn.py`: inclusive width `x2 - x1 + 1`, inclusive
height `y2 - y1 + 1`, and the centre point `(urx, ury) = (x1 + width/2, y1 + height/2)`
of one box (the source's `.5 * width` is written `width / 2`). -/
def get_width_upright (b : Box α) : α × α × α × α :=
  let width := b.x2 - b.x1 + 1
  let height := b.y2 - b.y1 + 1
  (width, height, b.x1 + width / 2, b.y1 + height / 2)

/-- Model of `change_order` of `rpn.py` on one row: swap `(x_min, y_min, x_max, y_max)`
to `(y_min, x_min, y_max, x_max)` (TensorFlow's box order). -/
def change_order (b : Box α) : Box α :=
  ⟨b.y1, b.x1, b.y2, b.x2⟩

/-- One row of `encode` of `rpn.py`: deltas from an anchor `b` to a ground
truth box `g`, with variances `v0` (for the centre) and `v1` (for the size). -/
noncomputable def encodeRow (b g : Box ℝ) (v0 v1 : ℝ) : Delta ℝ :=
  let (bw, bh, burx, bury) := get_width_upright b
  let (gw, gh, gurx, gury) := get_width_upright g
  ⟨(gurx - burx) / (bw * v0), (gury - bury) / (bh * v0),
   Real.log (gw / bw) / v1, Real.log (gh / bh) / v1⟩

/-- Model of `encode(bboxes, gt_boxes, variances)` of `rpn.py`, row-wise; `variances`
defaults to `[1, 1]` when `none` is passed (python `variances=None`). -/
noncomputable def encode (bboxes gt_boxes : List (Box ℝ))
    (variances : Option (ℝ × ℝ)) : List (Delta ℝ) :=
  let v := variances.getD (1, 1)
  List.zipWith (fun b g => encodeRow b g v.1 v.2) bboxes gt_boxes

/-- One row of `decode` of `rpn.py`: apply deltas `d` to an anchor (roi) `r`.
The upper corners subtract an extra `1.` (the source's inclusive-pixel
convention; `0.5 * pred_w` is written `pred_w / 2`). -/
noncomputable def decodeRow (r : Box ℝ) (d : Delta ℝ) (v0 v1 : ℝ) : Box ℝ :=
  let (rw, rh, rurx, rury) := get_width_upright r
  let pred_ur_x := d.dx * rw * v0 + rurx
  let pred_ur_y := d.dy * rh * v0 + rury
  let pred_w := Real.exp (d.dw * v1) * rw
  let pred_h := Real.exp (d.dh * v1) * rh
  ⟨pred_ur_x - pred_w / 2, pred_ur_y - pred_h / 2,
   pred_ur_x + pred_w / 2 - 1, pred_ur_y + pred_h / 2 - 1⟩

/-- Model of `decode(roi, deltas, variances)` of `rpn.py`, row-wise; `variances`
defaults to `[1, 1]` when `none` is passed. -/
noncomputable def decode (roi : List (Box ℝ)) (deltas : List (Delta ℝ))
    (variances : Option (ℝ × ℝ)) : List (Box ℝ) :=
  let v := variances.getD (1, 1)
  List.zipWith (fun r d => decodeRow r d v.1 v.2) roi deltas

/-- The flattened `np.meshgrid(scales, aspect_ratios)` of
`generate_anchors_reference`: both grids have shape
`(|ratios|, |scales|)` and are reshaped row-major, so the pair at flat
index `k` is `(ratios[k / |scales|], scales[k % |scales|])` — the ratio
index varies slower. -/
def meshPairs (aspect_ratios scales : List ℝ) : List (ℝ × ℝ) :=
  aspect_ratios.flatMap (fun r => scales.map (fun s => (r, s)))

/-- One reference anchor of `generate_anchors_reference`:
`height = scale * sqrt(ratio) * base_size`, `width = scale / sqrt(ratio) * base_size`,
corners at `center_xy ± (width - 1)/2` with `center_xy = 0`. -/
noncomputable def mkAnchor (r s base_size : ℝ) : Box ℝ :=
  let h := s * Real.sqrt r * base_size
  let w := s / Real.sqrt r * base_size
  ⟨-((w - 1) / 2), -((h - 1) / 2), (w - 1) / 2, (h - 1) / 2⟩

/-- The `anchors` array built by `generate_anchors_reference` before its
degeneracy check: one box per `(ratio, scale)` pair of the flattened meshgrid. -/
noncomputable def anchors_of (base_size : ℝ) (aspect_ratios scales : List ℝ) :
    List (Box ℝ) :=
  (meshPairs aspect_ratios scales).map (fun p => mkAnchor p.1 p.2 base_size)

/-- Truncation toward zero, the semantics of numpy's `astype(np.int)` on an
exact real value. -/
noncomputable def truncInt (x : ℝ) : ℤ :=
  if 0 ≤ x then ⌊x⌋ else ⌈x⌉

/-- The failure condition of `generate_anchors_reference`:
`(real_widths == 0).any() or (real_heights == 0).any()` where
`real_widths = (anchors[:, 2] - anchors[:, 0]).astype(np.int)` and
`real_heights = (anchors[:, 3] - anchors[:, 1]).astype(np.int)`. -/
def anchorsDegenerate (anchors : List (Box ℝ)) : Prop :=
  (∃ a ∈ anchors, truncInt (a.x2 - a.x1) = 0) ∨
    (∃ a ∈ anchors, truncInt (a.y2 - a.y1) = 0)

open Classical in
/-- Model of `generate_anchors_reference(base_size, aspect_ratios, scales)` of
`rpn.py`: build the reference anchors, raising `ValueError` (modelled as
`Except.error`) when some `real_width` or `real_height` casts to zero. -/
noncomputable def generate_anchors_reference (base_size : ℝ)
    (aspect_ratios scales : List ℝ) : Except String (List (Box ℝ)) :=
  let anchors := anchors_of base_size aspect_ratios scales
  if anchorsDegenerate anchors then
    Except.error "base_size is too small for aspect_ratios and scales."
  else
    Except.ok anchors

/-- The flattened `tf.meshgrid(shift_x, shift_y)` of `generate_anchors`:
shift pairs `(shift_x, shift_y)` in row-major order with the `y` index
varying slower, `shift_x = range(width) * stride`,
`shift_y = range(height) * stride`. -/
def shiftsFor (height width : ℕ) (stride : α) : List (α × α) :=
  (List.range height).flatMap
    (fun (i : ℕ) => (List.range width).map
      (fun (j : ℕ) => ((j : α) * stride, (i : α) * stride)))

/-- Translate a box by a shift pair `(sx, sy)`: the broadcast sum
`anchor_reference + shifts` of `generate_anchors` adds
`(sx, sy, sx, sy)` to the four coordinates. -/
def translateBox (b : Box α) (s : α × α) : Box α :=
  ⟨b.x1 + s.1, b.y1 + s.2, b.x2 + s.1, b.y2 + s.2⟩

/-- The tiling step of `generate_anchors` (lines after the reference set is
built): for every shift pair and every reference anchor, translate the
reference anchor by the shift; flattened shift-major,
reference-anchor-minor. -/
def tile_anchors (reference : List (Box α)) (height width : ℕ) (stride : α) :
    List (Box α) :=
  (shiftsFor height width stride).flatMap
    (fun s => reference.map (fun a => translateBox a s))

/-- Model of `generate_anchors(feature_map_shape)` of `rpn.py` with its hard-coded
configuration: `base_size = 256`, ratios `[0.5, 1, 2]`,
scales `[0.125, 0.25, 0.5, 1, 2]`, stride `16`. -/
noncomputable def generate_anchors (height width : ℕ) : List (Box ℝ) :=
  tile_anchors (anchors_of 256 [0.5, 1, 2] [0.125, 0.25, 0.5, 1, 2])
    height width 16

/-- The anchor predicate of the `filter_outside_anchors` block of
`build_rpn`: `x_min ≥ 0 ∧ y_min ≥ 0 ∧ x_max < im_width ∧ y_max < im_height`. -/
def insideImage (im_height im_width : α) (a : Box α) : Bool :=
  decide (0 ≤ a.x1) && decide (0 ≤ a.y1) &&
    decide (a.x2 < im_width) && decide (a.y2 < im_height)

/-- Model of `tf.boolean_mask`: keep the entries of `l` whose mask entry is `true`. -/
def booleanMask {β : Type} : List β → List Bool → List β
  | [], _ => []
  | _, [] => []
  | a :: l, m :: ms => if m then a :: booleanMask l ms else booleanMask l ms

/-- The `filter_outside_anchors` block of `build_rpn`: one mask computed
from the anchors, applied to the anchors, the offset rows and the scores. -/
def filter_outside_anchors (all_anchors : List (Box α))
    (rpn_bbox_pred : List (Delta α)) (all_scores : List α)
    (im_height im_width : α) :
    List (Box α) × List (Delta α) × List α :=
  let anchor_filter := all_anchors.map (fun a => insideImage im_height im_width a)
  (booleanMask all_anchors anchor_filter,
   booleanMask rpn_bbox_pred anchor_filter,
   booleanMask all_scores anchor_filter)

/-- Modelled from the spec: stable descending insertion of one
`(index, score)` pair — the element is placed before the first entry whose
score is not larger, so equal scores keep the earlier original index first,
the tie rule of `tf.nn.top_k` and `tf.image.non_max_suppression`. -/
def insertDesc (p : ℕ × α) : List (ℕ × α) → List (ℕ × α)
  | [] => [p]
  | q :: l => if q.2 ≤ p.2 then p :: q :: l else q :: insertDesc p l

/-- Modelled from the spec: stable sort of `(index, score)` pairs by
non-increasing score, ties broken by original array position. -/
def sortDesc : List (ℕ × α) → List (ℕ × α)
  | [] => []
  | p :: l => insertDesc p (sortDesc l)

/-- Modelled from the spec: `tf.nn.top_k(scores, k)` (external TensorFlow
code) — the `k` largest scores in descending order together with their
original indices, ties broken by lower index first. -/
def top_k (scores : List α) (k : ℕ) : List α × List ℕ :=
  let sorted := sortDesc scores.enum
  ((sorted.map (fun p => p.2)).take k, (sorted.map (fun p => p.1)).take k)

/-- Model of `tf.gather`: select the rows of `l` at the given indices
(`d` is the out-of-range default; all indices used by the pipeline are in
range). -/
def gather {β : Type} (l : List β) (indices : List ℕ) (d : β) : List β :=
  indices.map (fun i => l.getD i d)

/-- Modelled from the spec: Intersection-over-Union of two axis-aligned
boxes under the inclusive coordinate convention
(`width = x_max - x_min + 1`), as assumed of `tf.image.non_max_suppression`. -/
def iou (a b : Box α) : α :=
  (max (min a.x2 b.x2 - max a.x1 b.x1 + 1) 0 *
      max (min a.y2 b.y2 - max a.y1 b.y1 + 1) 0) /
    ((a.x2 - a.x1 + 1) * (a.y2 - a.y1 + 1) +
      (b.x2 - b.x1 + 1) * (b.y2 - b.y1 + 1) -
      max (min a.x2 b.x2 - max a.x1 b.x1 + 1) 0 *
        max (min a.y2 b.y2 - max a.y1 b.y1 + 1) 0)

/-- Modelled from the spec: the greedy loop of non-maximum suppression over
`(original index, box)` pairs already ordered by non-increasing score —
accept a box when its IoU with every previously accepted box is below the
threshold, stopping once `budget` boxes have been accepted. -/
def nmsGo (t : α) : List (ℕ × Box α) → List (Box α) → ℕ → List ℕ
  | [], _, _ => []
  | (i, b) :: rest, acc, budget =>
    if budget = 0 then []
    else if acc.all (fun a => decide (iou a b < t)) then
      i :: nmsGo t rest (b :: acc) (budget - 1)
    else
      nmsGo t rest acc budget

/-- Modelled from the spec: `tf.image.non_max_suppression(boxes, scores,
max_output_size, iou_threshold)` (external TensorFlow code) — sort by
score descending (stable), then greedily select, returning the selected
indices into the input arrays. -/
def non_max_suppression (boxes : List (Box α)) (scores : List α)
    (max_output_size : ℕ) (iou_threshold : α) : List ℕ :=
  let order := (sortDesc scores.enum).map (fun p => p.1)
  nmsGo iou_threshold (order.map (fun i => (i, boxes.getD i ⟨0, 0, 0, 0⟩)))
    [] max_output_size

/-- The constant `pre_nms_top_n = 12000` of `build_rpn`. -/
def pre_nms_top_n : ℕ := 12000

/-- The constant `post_nms_top_n = 2000` of `build_rpn`. -/
def post_nms_top_n : ℕ := 2000

/-- The constant `nms_threshold = 0.7` of `build_rpn`. -/
def nms_threshold : α := 7 / 10

/-- The `nms` name scope of `build_rpn`: reorder the (already
score-sorted) proposals into TensorFlow's box order, run non-maximum
suppression, gather the selected proposals and scores, and switch the
proposals back to the `(x_min, y_min, x_max, y_max)` order. -/
def nmsStage (sorted_top_proposals : List (Box α)) (sorted_top_scores : List α) :
    List (Box α) × List α :=
  let proposals_tf_order := sorted_top_proposals.map change_order
  let selected_indices :=
    non_max_suppression proposals_tf_order sorted_top_scores
      post_nms_top_n nms_threshold
  let nms_proposals_tf_order := gather proposals_tf_order selected_indices ⟨0, 0, 0, 0⟩
  (nms_proposals_tf_order.map change_order,
   gather sorted_top_scores selected_indices 0)

/-- The proposal-selection tail of `build_rpn`: top-`k` filtering with
`k = min(pre_nms_top_n, #scores)` followed by the `nms` stage, applied to
the candidates that survived the boundary and area filters. -/
def proposalSelect (unsorted_proposals : List (Box α)) (unsorted_scores : List α) :
    List (Box α) × List α :=
  let k := min pre_nms_top_n unsorted_scores.length
  let tk := top_k unsorted_scores k
  let sorted_top_proposals := gather unsorted_proposals tk.2 ⟨0, 0, 0, 0⟩
  nmsStage sorted_top_proposals tk.1

/-! ### Helper lemmas -/

theorem length_flatMap_uniform {β γ : Type} (l : List β) (f : β → List γ) (n : ℕ)
    (hf : ∀ b ∈ l, (f b).length = n) : (l.flatMap f).length = l.length * n := by
  induction l with
  | nil => simp
  | cons b l ih =>
    simp only [List.flatMap_cons, List.length_append, List.length_cons]
    rw [hf b (List.mem_cons_self _ _), ih (fun x hx => hf x (List.mem_cons_of_mem _ hx))]
    ring

theorem flatMap_getElem?_uniform {β γ : Type} (l : List β) (f : β → List γ) (n : ℕ)
    (hf : ∀ b ∈ l, (f b).length = n) (i j : ℕ) (hj : j < n) :
    (l.flatMap f)[i * n + j]? = l[i]?.bind (fun b => (f b)[j]?) := by
  induction l generalizing i with
  | nil => simp
  | cons b l ih =>
    have hb : (f b).length = n := hf b (List.mem_cons_self _ _)
    rcases i with _ | i
    · rw [List.flatMap_cons, show 0 * n + j = j from by omega, List.getElem?_append,
        if_pos (by omega : j < (f b).length)]
      simp
    · have harith : (i + 1) * n + j = n + (i * n + j) := by ring
      rw [List.flatMap_cons, harith,
        List.getElem?_append_right (by rw [hb]; exact Nat.le_add_right _ _), hb,
        Nat.add_sub_cancel_left,
        ih (fun x hx => hf x (List.mem_cons_of_mem _ hx))]
      simp

theorem meshPairs_getElem? (ratios scales : List ℝ) (i j : ℕ) (hj : j < scales.length) :
    (meshPairs ratios scales)[i * scales.length + j]? =
      ratios[i]?.bind (fun r => scales[j]?.map (fun s => (r, s))) := by
  rw [meshPairs,
    flatMap_getElem?_uniform _ _ scales.length (fun r _ => by simp) _ _ hj]
  rcases h : ratios[i]? with _ | r <;> simp [h, List.getElem?_map]

theorem anchors_of_getElem? (base_size : ℝ) (ratios scales : List ℝ) (i j : ℕ)
    (r s : ℝ) (hr : ratios[i]? = some r) (hs : scales[j]? = some s) :
    (anchors_of base_size ratios scales)[i * scales.length + j]? =
      some (mkAnchor r s base_size) := by
  have hj : j < scales.length := (List.getElem?_eq_some.mp hs).1
  rw [anchors_of, List.getElem?_map, meshPairs_getElem? _ _ _ _ hj, hr, hs]
  rfl

theorem shiftsFor_getElem? (height width : ℕ) (stride : α) (k : ℕ)
    (hk : k < height * width) :
    (shiftsFor height width stride)[k]? =
      some (((k % width : ℕ) : α) * stride, ((k / width : ℕ) : α) * stride) := by
  have hW : 0 < width := by
    rcases Nat.eq_zero_or_pos width with h | h
    · subst h; omega
    · exact h
  have hi : k / width < height := (Nat.div_lt_iff_lt_mul hW).mpr hk
  have hj : k % width < width := Nat.mod_lt _ hW
  have hk' : k / width * width + k % width = k := by
    rw [Nat.mul_comm]; exact Nat.div_add_mod k width
  conv_lhs => rw [← hk']
  rw [shiftsFor,
    flatMap_getElem?_uniform _ _ width
      (fun b _ => by rw [List.length_map, List.length_range]) _ _ hj,
    List.getElem?_range hi, Option.some_bind, List.getElem?_map,
    List.getElem?_range hj, Option.map_some']

theorem booleanMask_map_filter {β : Type} (l : List β) (f : β → Bool) :
    booleanMask l (l.map f) = l.filter f := by
  induction l with
  | nil => rfl
  | cons a l ih =>
    simp only [List.map_cons, booleanMask, List.filter_cons]
    cases hfa : f a <;> simp [hfa, ih]

theorem booleanMask_zip {β γ : Type} (f : β → Bool) :
    ∀ (l : List β) (l' : List γ), l'.length = l.length →
      (booleanMask l (l.map f)).zip (booleanMask l' (l.map f)) =
        (l.zip l').filter (fun p => f p.1) := by
  intro l
  induction l with
  | nil =>
    intro l' h
    rw [List.length_nil, List.length_eq_zero] at h
    subst h
    rfl
  | cons a l ih =>
    intro l' h
    cases l' with
    | nil => simp at h
    | cons b l' =>
      simp only [List.map_cons, booleanMask, List.zip_cons_cons, List.filter_cons]
      cases hfa : f a
      · simpa [hfa] using ih l' (by simpa using h)
      · simpa [hfa] using ih l' (by simpa using h)

theorem length_insertDesc (p : ℕ × α) :
    ∀ l : List (ℕ × α), (insertDesc p l).length = l.length + 1 := by
  intro l
  induction l with
  | nil => rfl
  | cons q l ih =>
    rw [insertDesc]
    split
    · rfl
    · simp [ih]

theorem length_sortDesc : ∀ l : List (ℕ × α), (sortDesc l).length = l.length := by
  intro l
  induction l with
  | nil => rfl
  | cons p l ih => rw [sortDesc, length_insertDesc, ih, List.length_cons]

theorem mem_insertDesc (p x : ℕ × α) :
    ∀ l : List (ℕ × α), x ∈ insertDesc p l ↔ x = p ∨ x ∈ l := by
  intro l
  induction l with
  | nil => simp [insertDesc]
  | cons q l ih =>
    rw [insertDesc]
    split
    · simp
    · simp only [List.mem_cons, ih]
      tauto

theorem mem_sortDesc (x : ℕ × α) :
    ∀ l : List (ℕ × α), x ∈ sortDesc l ↔ x ∈ l := by
  intro l
  induction l with
  | nil => simp [sortDesc]
  | cons p l ih => simp [sortDesc, mem_insertDesc, ih]

theorem iou_comm (a b : Box α) : iou a b = iou b a := by
  rw [iou, iou, min_comm a.x2 b.x2, max_comm a.x1 b.x1, min_comm a.y2 b.y2,
    max_comm a.y1 b.y1]
  ring_nf

theorem iou_change_order (a b : Box α) :
    iou (change_order a) (change_order b) = iou a b := by
  rw [iou, iou, change_order, change_order]
  ring_nf

theorem nmsGo_sel (t : α) (master : List (Box α)) (d : Box α) :
    ∀ (pending : List (ℕ × Box α)) (acc : List (Box α)) (budget : ℕ),
      (∀ r ∈ pending, master.getD r.1 d = r.2) →
      (∀ a ∈ acc, ∀ k ∈ nmsGo t pending acc budget, iou a (master.getD k d) < t) ∧
        ((nmsGo t pending acc budget).map (fun k => master.getD k d)).Pairwise
          (fun p q => iou p q < t) := by
  intro pending
  induction pending with
  | nil => intro acc budget _; simp [nmsGo]
  | cons hd tl ih =>
    obtain ⟨i, b⟩ := hd
    intro acc budget hmem
    have hib : master.getD i d = b := hmem (i, b) (List.mem_cons_self _ _)
    have hmem' : ∀ r ∈ tl, master.getD r.1 d = r.2 :=
      fun r hr => hmem r (List.mem_cons_of_mem _ hr)
    by_cases hb : budget = 0
    · simp [nmsGo, hb]
    · by_cases hacc : acc.all (fun a => decide (iou a b < t)) = true
      · have hstep : nmsGo t ((i, b) :: tl) acc budget =
            i :: nmsGo t tl (b :: acc) (budget - 1) := by
          rw [nmsGo, if_neg hb, if_pos hacc]
        obtain ⟨ihacc, ihpair⟩ := ih (b :: acc) (budget - 1) hmem'
        rw [hstep]
        constructor
        · intro a ha k hk
          rcases List.mem_cons.mp hk with rfl | hk'
          · rw [hib]
            simpa using List.all_eq_true.mp hacc a ha
          · exact ihacc a (List.mem_cons_of_mem _ ha) k hk'
        · rw [List.map_cons]
          refine List.Pairwise.cons ?_ ihpair
          intro q hq
          rcases List.mem_map.mp hq with ⟨k, hk, rfl⟩
          show iou (master.getD i d) (master.getD k d) < t
          rw [hib]
          exact ihacc b (List.mem_cons_self _ _) k hk
      · have hstep : nmsGo t ((i, b) :: tl) acc budget = nmsGo t tl acc budget := by
          rw [nmsGo, if_neg hb, if_neg hacc]
        rw [hstep]
        exact ih acc budget hmem'

theorem nmsGo_length (t : α) :
    ∀ (pending : List (ℕ × Box α)) (acc : List (Box α)) (budget : ℕ),
      (nmsGo t pending acc budget).length ≤ budget ∧
        (nmsGo t pending acc budget).length ≤ pending.length := by
  intro pending
  induction pending with
  | nil => intro acc budget; simp [nmsGo]
  | cons hd tl ih =>
    obtain ⟨i, b⟩ := hd
    intro acc budget
    by_cases hb : budget = 0
    · simp [nmsGo, hb]
    · by_cases hacc : acc.all (fun a => decide (iou a b < t)) = true
      · rw [nmsGo, if_neg hb, if_pos hacc]
        have h := ih (b :: acc) (budget - 1)
        simp only [List.length_cons]
        omega
      · rw [nmsGo, if_neg hb, if_neg hacc]
        have h := ih acc budget
        simp only [List.length_cons]
        omega

theorem nmsGo_mem (t : α) :
    ∀ (pending : List (ℕ × Box α)) (acc : List (Box α)) (budget : ℕ),
      ∀ k ∈ nmsGo t pending acc budget, ∃ b, (k, b) ∈ pending := by
  intro pending
  induction pending with
  | nil => intro acc budget k hk; simp [nmsGo] at hk
  | cons hd tl ih =>
    obtain ⟨i, b⟩ := hd
    intro acc budget k hk
    rw [nmsGo] at hk
    by_cases hb : budget = 0
    · rw [if_pos hb] at hk
      simp at hk
    · rw [if_neg hb] at hk
      by_cases hacc : acc.all (fun a => decide (iou a b < t)) = true
      · rw [if_pos hacc] at hk
        rcases List.mem_cons.mp hk with rfl | hk'
        · exact ⟨b, List.mem_cons_self _ _⟩
        · obtain ⟨b', hb'⟩ := ih (b :: acc) (budget - 1) k hk'
          exact ⟨b', List.mem_cons_of_mem _ hb'⟩
      · rw [if_neg hacc] at hk
        obtain ⟨b', hb'⟩ := ih acc budget k hk
        exact ⟨b', List.mem_cons_of_mem _ hb'⟩

theorem decodeRow_encodeRow (b g : Box ℝ) (v0 v1 : ℝ)
    (hbw : 0 < b.x2 - b.x1 + 1) (hbh : 0 < b.y2 - b.y1 + 1)
    (hgw : 0 < g.x2 - g.x1 + 1) (hgh : 0 < g.y2 - g.y1 + 1)
    (hv0 : v0 ≠ 0) (hv1 : v1 ≠ 0) :
    decodeRow b (encodeRow b g v0 v1) v0 v1 = g := by
  have hbw' : b.x2 - b.x1 + 1 ≠ 0 := ne_of_gt hbw
  have hbh' : b.y2 - b.y1 + 1 ≠ 0 := ne_of_gt hbh
  obtain ⟨bx1, by1, bx2, by2⟩ := b
  obtain ⟨gx1, gy1, gx2, gy2⟩ := g
  simp only at hbw hbh hgw hgh hbw' hbh'
  simp only [decodeRow, encodeRow, get_width_upright]
  rw [Box.mk.injEq]
  refine ⟨?_, ?_, ?_, ?_⟩
  · rw [div_mul_cancel₀ _ hv1, Real.exp_log (div_pos hgw hbw),
      div_mul_cancel₀ _ hbw', mul_assoc, div_mul_cancel₀ _ (mul_ne_zero hbw' hv0)]
    ring
  · rw [div_mul_cancel₀ _ hv1, Real.exp_log (div_pos hgh hbh),
      div_mul_cancel₀ _ hbh', mul_assoc, div_mul_cancel₀ _ (mul_ne_zero hbh' hv0)]
    ring
  · rw [div_mul_cancel₀ _ hv1, Real.exp_log (div_pos hgw hbw),
      div_mul_cancel₀ _ hbw', mul_assoc, div_mul_cancel₀ _ (mul_ne_zero hbw' hv0)]
    ring
  · rw [div_mul_cancel₀ _ hv1, Real.exp_log (div_pos hgh hbh),
      div_mul_cancel₀ _ hbh', mul_assoc, div_mul_cancel₀ _ (mul_ne_zero hbh' hv0)]
    ring

theorem decodeRow_zero (r : Box ℝ) : decodeRow r (Delta.mk 0 0 0 0) 1 1 = r := by
  obtain ⟨x1, y1, x2, y2⟩ := r
  simp only [decodeRow, get_width_upright, zero_mul, Real.exp_zero, one_mul,
    zero_add]
  rw [Box.mk.injEq]
  refine ⟨by ring, by ring, by ring, by ring⟩

theorem anchorsDegenerate_iff (base_size : ℝ) (aspect_ratios scales : List ℝ) :
    anchorsDegenerate (anchors_of base_size aspect_ratios scales) ↔
      ∃ r ∈ aspect_ratios, ∃ s ∈ scales,
        truncInt (s / Real.sqrt r * base_size - 1) = 0 ∨
          truncInt (s * Real.sqrt r * base_size - 1) = 0 := by
  have hspan : ∀ x : ℝ, x / 2 - -(x / 2) = x := fun x => by ring
  constructor
  · rintro (⟨a, ha, h0⟩ | ⟨a, ha, h0⟩) <;>
    · simp only [anchors_of, meshPairs, List.mem_map, List.mem_flatMap] at ha
      obtain ⟨p, ⟨r, hr, s, hs, rfl⟩, rfl⟩ := ha
      refine ⟨r, hr, s, hs, ?_⟩
      simp only [mkAnchor, hspan] at h0
      tauto
  · rintro ⟨r, hr, s, hs, h0 | h0⟩
    · left
      refine ⟨mkAnchor r s base_size, ?_, ?_⟩
      · simp only [anchors_of, meshPairs, List.mem_map, List.mem_flatMap]
        exact ⟨(r, s), ⟨r, hr, s, hs, rfl⟩, rfl⟩
      · simpa only [mkAnchor, hspan] using h0
    · right
      refine ⟨mkAnchor r s base_size, ?_, ?_⟩
      · simp only [anchors_of, meshPairs, List.mem_map, List.mem_flatMap]
        exact ⟨(r, s), ⟨r, hr, s, hs, rfl⟩, rfl⟩
      · simpa only [mkAnchor, hspan] using h0

theorem nmsStage_iou (SP : List (Box α)) (SS : List α) (i j : ℕ) (p q : Box α)
    (hp : (nmsStage SP SS).1[i]? = some p) (hq : (nmsStage SP SS).1[j]? = some q)
    (hij : i ≠ j) : iou p q < nms_threshold := by
  set tfo : List (Box α) := SP.map change_order with htfo
  set d : Box α := ⟨0, 0, 0, 0⟩ with hd
  set pending : List (ℕ × Box α) :=
    ((sortDesc SS.enum).map (fun p => p.1)).map (fun k => (k, tfo.getD k d))
    with hpending
  set sel : List ℕ := nmsGo nms_threshold pending [] post_nms_top_n with hsel
  have hpend : ∀ r ∈ pending, tfo.getD r.1 d = r.2 := by
    intro r hr
    rcases List.mem_map.mp hr with ⟨k, _, rfl⟩
    rfl
  have hpair : (sel.map (fun k => tfo.getD k d)).Pairwise
      (fun p q => iou p q < nms_threshold) :=
    (nmsGo_sel nms_threshold tfo d pending [] post_nms_top_n hpend).2
  have hout : (nmsStage SP SS).1 =
      (sel.map (fun k => tfo.getD k d)).map change_order := rfl
  rw [hout] at hp hq
  obtain ⟨hi, hpi⟩ := List.getElem?_eq_some.mp hp
  obtain ⟨hj, hqj⟩ := List.getElem?_eq_some.mp hq
  rw [List.getElem_map] at hpi hqj
  set G : List (Box α) := sel.map (fun k => tfo.getD k d) with hG
  rw [List.length_map] at hi hj
  have hpair' := List.pairwise_iff_getElem.mp hpair
  rcases Nat.lt_or_ge i j with hlt | hge
  · have h := hpair' i j hi hj hlt
    rw [← hpi, ← hqj, iou_change_order]
    exact h
  · have hlt : j < i := lt_of_le_of_ne hge (Ne.symm hij)
    have h := hpair' j i hj hi hlt
    rw [← hpi, ← hqj, iou_change_order, iou_comm]
    exact h

theorem non_max_suppression_length (boxes : List (Box α)) (scores : List α)
    (m : ℕ) (t : α) :
    (non_max_suppression boxes scores m t).length ≤ min m scores.length := by
  have h := nmsGo_length t
    (((sortDesc scores.enum).map (fun p => p.1)).map
      (fun i => (i, boxes.getD i ⟨0, 0, 0, 0⟩))) [] m
  have hpend : (((sortDesc scores.enum).map (fun p => p.1)).map
      (fun i => (i, boxes.getD i (⟨0, 0, 0, 0⟩ : Box α)))).length = scores.length := by
    rw [List.length_map, List.length_map, length_sortDesc, List.enum_length]
  have hns : (non_max_suppression boxes scores m t).length =
      (nmsGo t (((sortDesc scores.enum).map (fun p => p.1)).map
        (fun i => (i, boxes.getD i ⟨0, 0, 0, 0⟩))) [] m).length := rfl
  omega

theorem nmsStage_fst_length (SP : List (Box α)) (SS : List α) :
    (nmsStage SP SS).1.length ≤ min post_nms_top_n SS.length := by
  have hlen : (nmsStage SP SS).1.length =
      (non_max_suppression (SP.map change_order) SS post_nms_top_n
        nms_threshold).length := by
    show ((gather (SP.map change_order)
        (non_max_suppression (SP.map change_order) SS post_nms_top_n nms_threshold)
        ⟨0, 0, 0, 0⟩).map change_order).length = _
    rw [List.length_map, gather, List.length_map]
  have h := non_max_suppression_length (SP.map change_order) SS post_nms_top_n
    (nms_threshold : α)
  omega

theorem nmsStage_mem (SP : List (Box α)) (SS : List α)
    (hlen : SS.length = SP.length) : ∀ p ∈ (nmsStage SP SS).1, p ∈ SP := by
  intro p hp
  have hout : (nmsStage SP SS).1 =
      (gather (SP.map change_order)
        (non_max_suppression (SP.map change_order) SS post_nms_top_n nms_threshold)
        ⟨0, 0, 0, 0⟩).map change_order := rfl
  rw [hout, gather] at hp
  rcases List.mem_map.mp hp with ⟨g, hg, rfl⟩
  rcases List.mem_map.mp hg with ⟨k, hk, rfl⟩
  have hksel : k ∈ nmsGo nms_threshold
      (((sortDesc SS.enum).map (fun p => p.1)).map
        (fun i => (i, (SP.map change_order).getD i ⟨0, 0, 0, 0⟩)))
      [] post_nms_top_n := hk
  obtain ⟨b', hb'⟩ := nmsGo_mem nms_threshold _ [] post_nms_top_n k hksel
  rcases List.mem_map.mp hb' with ⟨k', hk', hkk⟩
  have hk'' : k' = k := congrArg Prod.fst hkk
  subst hk''
  rcases List.mem_map.mp hk' with ⟨pr, hpr, rfl⟩
  obtain ⟨ik, xk⟩ := pr
  have hprmem : (ik, xk) ∈ SS.enum := (mem_sortDesc _ _).mp hpr
  have hbd := List.mem_enumFrom (show (ik, xk) ∈ List.enumFrom 0 SS from hprmem)
  have hiklt : ik < SP.length := by omega
  have hmlt : (ik, xk).1 < (SP.map change_order).length := by
    rw [List.length_map]
    exact hiklt
  rw [List.getD_eq_getElem _ _ hmlt, List.getElem_map]
  exact List.getElem_mem hiklt

/-! ### Claim theorems -/

/-- Claim C1 (amended): for anchor and target box lists of equal length with
positive inclusive widths and heights, and any variances with both
components nonzero, `decode (A, encode (A, B, v), v) = B` exactly. -/
theorem encode_decode_roundtrip (A B : List (Box ℝ)) (variances : Option (ℝ × ℝ))
    (hlen : A.length = B.length)
    (hA : ∀ a ∈ A, 0 < a.x2 - a.x1 + 1 ∧ 0 < a.y2 - a.y1 + 1)
    (hB : ∀ g ∈ B, 0 < g.x2 - g.x1 + 1 ∧ 0 < g.y2 - g.y1 + 1)
    (hv0 : (variances.getD (1, 1)).1 ≠ 0) (hv1 : (variances.getD (1, 1)).2 ≠ 0) :
    decode A (encode A B variances) variances = B := by
  simp only [decode, encode]
  revert hlen hA hB
  induction A generalizing B with
  | nil =>
    intro hlen hA hB
    cases B with
    | nil => rfl
    | cons g B => exact absurd hlen (by simp)
  | cons a A ih =>
    intro hlen hA hB
    cases B with
    | nil => exact absurd hlen (by simp)
    | cons g B =>
      simp only [List.zipWith_cons_cons]
      rw [decodeRow_encodeRow a g _ _ (hA a (List.mem_cons_self _ _)).1
          (hA a (List.mem_cons_self _ _)).2 (hB g (List.mem_cons_self _ _)).1
          (hB g (List.mem_cons_self _ _)).2 hv0 hv1,
        ih B (by simpa using hlen) (fun x hx => hA x (List.mem_cons_of_mem _ hx))
          (fun x hx => hB x (List.mem_cons_of_mem _ hx))]

/-- Witness for C1: a concrete round trip with the default variances. -/
theorem encode_decode_roundtrip_witness :
    decode [Box.mk (0 : ℝ) 0 1 1]
        (encode [Box.mk (0 : ℝ) 0 1 1] [Box.mk (2 : ℝ) 2 3 3] none) none =
      [Box.mk (2 : ℝ) 2 3 3] :=
  encode_decode_roundtrip _ _ _ rfl
    (by
      intro a ha
      rw [List.mem_singleton] at ha
      subst ha
      norm_num)
    (by
      intro g hg
      rw [List.mem_singleton] at hg
      subst hg
      norm_num)
    (by norm_num) (by norm_num)

/-- Counterexample to C1 as stated: with variances `(0, 1)` the round trip
fails (the encoded centre offset is divided by zero), so the law does not
hold for arbitrary variances. -/
theorem encode_decode_zero_variance_cex :
    decode [Box.mk (0 : ℝ) 0 1 1]
        (encode [Box.mk (0 : ℝ) 0 1 1] [Box.mk (2 : ℝ) 2 3 3] (some (0, 1)))
        (some (0, 1)) ≠ [Box.mk (2 : ℝ) 2 3 3] := by
  intro h
  simp only [decode, encode, Option.getD_some, List.zipWith_cons_cons,
    List.zipWith_nil_right] at h
  rw [List.cons.injEq] at h
  obtain ⟨hbox, -⟩ := h
  have h2 := congrArg Box.x1 hbox
  simp only [decodeRow, encodeRow, get_width_upright] at h2
  norm_num [Real.log_one, Real.exp_zero] at h2

/-- Claim C9: decoding the all-zero delta array with default variances
reproduces the anchors exactly: the `-1` corner adjustment in `decode`
cancels the `+1` inclusive width of `get_width_upright`. -/
theorem decode_zero_deltas_id (roi : List (Box ℝ)) :
    decode roi (List.replicate roi.length (Delta.mk 0 0 0 0)) none = roi := by
  simp only [decode, Option.getD_none]
  induction roi with
  | nil => rfl
  | cons r roi ih =>
    simp only [List.length_cons, List.replicate_succ, List.zipWith_cons_cons]
    rw [decodeRow_zero, ih]

/-- Claim C8: the reference anchor for ratio `ratios[i]` and scale
`scales[j]` sits at flat index `i * |scales| + j` and has
`height = scale * sqrt(ratio) * base_size`,
`width = scale / sqrt(ratio) * base_size`, spanning
`[-(width-1)/2, -(height-1)/2, (width-1)/2, (height-1)/2]`. -/
theorem reference_anchor_geometry (base_size r s : ℝ) (ratios scales : List ℝ)
    (i j : ℕ) (hr : ratios[i]? = some r) (hs : scales[j]? = some s) :
    (anchors_of base_size ratios scales)[i * scales.length + j]? =
      some (Box.mk (-((s / Real.sqrt r * base_size - 1) / 2))
        (-((s * Real.sqrt r * base_size - 1) / 2))
        ((s / Real.sqrt r * base_size - 1) / 2)
        ((s * Real.sqrt r * base_size - 1) / 2)) :=
  anchors_of_getElem? base_size ratios scales i j r s hr hs

/-- Witness for C8, the concrete scenario of the spec: `base_size = 256`,
`ratios = [1]`, `scales = [1]` produce the single reference anchor
`(-127.5, -127.5, 127.5, 127.5)`. -/
theorem reference_anchor_geometry_witness :
    (anchors_of 256 [1] [1])[0]? =
      some (Box.mk (-127.5 : ℝ) (-127.5) 127.5 127.5) := by
  have h := reference_anchor_geometry 256 1 1 [1] [1] 0 0 rfl rfl
  norm_num [Real.sqrt_one] at h ⊢
  exact h

/-- Counterexample to C4 as stated: with `ratios = [1, 4]`, `scales = [1, 2]`
the anchor at flat index `1` is NOT the one for `(ratio 4, scale 1)` that a
scales-outer/ratios-inner (scale slower) enumeration would put there; the
code enumerates ratios outer (slower) and scales inner (faster). -/
theorem reference_order_scale_outer_cex :
    (anchors_of 16 [1, 4] [1, 2])[1]? ≠ some (mkAnchor 4 1 16) := by
  have h1 : (anchors_of 16 [1, 4] [1, 2])[1]? = some (mkAnchor 1 2 16) := rfl
  rw [h1]
  intro h
  rw [Option.some.injEq] at h
  have h2 := congrArg Box.x2 h
  have hs4 : Real.sqrt 4 = 2 := by
    rw [show (4 : ℝ) = 2 ^ 2 by norm_num]
    exact Real.sqrt_sq (by norm_num)
  simp only [mkAnchor, Real.sqrt_one, hs4] at h2
  norm_num at h2

/-- Claim C4 (amended): the reference anchors are enumerated row-major over
ratios (outer) × scales (inner): the anchor at flat index `k` is built from
`ratios[k / |scales|]` and `scales[k % |scales|]` — the ratio index varies
slower and the scale index faster. -/
theorem reference_order_ratio_outer (base_size r s : ℝ) (ratios scales : List ℝ)
    (k : ℕ) (hr : ratios[k / scales.length]? = some r)
    (hs : scales[k % scales.length]? = some s) :
    (anchors_of base_size ratios scales)[k]? = some (mkAnchor r s base_size) := by
  have hk' : k / scales.length * scales.length + k % scales.length = k := by
    rw [Nat.mul_comm]
    exact Nat.div_add_mod k scales.length
  conv_lhs => rw [← hk']
  exact anchors_of_getElem? base_size ratios scales _ _ r s hr hs

/-- Witness for the amended C4: index `2` of the `[1, 4] × [1, 2]` grid is
the anchor for ratio `4` (index `2 / 2 = 1`) and scale `1`
(index `2 % 2 = 0`). -/
theorem reference_order_ratio_outer_witness :
    (anchors_of 16 [1, 4] [1, 2])[2]? = some (mkAnchor 4 1 16) :=
  reference_order_ratio_outer 16 4 1 [1, 4] [1, 2] 2 rfl rfl

/-- Counterexample to C5 as stated: with `base_size = 3`, `ratios = [1]`,
`scales = [1/2]` the width and height are `1.5`, which does not cast to
zero, yet `generate_anchors_reference` raises — the code casts
`x_max - x_min = width - 1`, not the width itself. -/
theorem generate_reference_error_cex :
    generate_anchors_reference 3 [1] [1 / 2] =
        Except.error "base_size is too small for aspect_ratios and scales." ∧
      truncInt ((1 / 2 : ℝ) / Real.sqrt 1 * 3) ≠ 0 ∧
      truncInt ((1 / 2 : ℝ) * Real.sqrt 1 * 3) ≠ 0 := by
  have hdeg : anchorsDegenerate (anchors_of 3 [1] [1 / 2]) := by
    left
    refine ⟨mkAnchor 1 (1 / 2) 3, ?_, ?_⟩
    · show mkAnchor 1 (1 / 2) 3 ∈ [mkAnchor 1 (1 / 2) 3]
      exact List.mem_singleton.mpr rfl
    · simp only [mkAnchor, Real.sqrt_one, truncInt]
      norm_num
  refine ⟨?_, ?_, ?_⟩
  · simp only [generate_anchors_reference]
    exact if_pos hdeg
  · simp only [truncInt, Real.sqrt_one]
    norm_num
  · simp only [truncInt, Real.sqrt_one]
    norm_num

/-- Claim C5 (amended): `generate_anchors_reference` raises exactly when for
some (ratio, scale) pair the corner span `x_max - x_min = width - 1` (or
`y_max - y_min = height - 1`) truncates to zero as an integer, with
`width = scale / sqrt(ratio) * base_size` and
`height = scale * sqrt(ratio) * base_size`; otherwise it returns the anchor
array. -/
theorem generate_reference_error_iff (base_size : ℝ) (aspect_ratios scales : List ℝ) :
    ((∃ e, generate_anchors_reference base_size aspect_ratios scales =
        Except.error e) ↔
      ∃ r ∈ aspect_ratios, ∃ s ∈ scales,
        truncInt (s / Real.sqrt r * base_size - 1) = 0 ∨
          truncInt (s * Real.sqrt r * base_size - 1) = 0) ∧
    (¬ (∃ r ∈ aspect_ratios, ∃ s ∈ scales,
        truncInt (s / Real.sqrt r * base_size - 1) = 0 ∨
          truncInt (s * Real.sqrt r * base_size - 1) = 0) →
      generate_anchors_reference base_size aspect_ratios scales =
        Except.ok (anchors_of base_size aspect_ratios scales)) := by
  by_cases hdeg : anchorsDegenerate (anchors_of base_size aspect_ratios scales)
  · have herr : generate_anchors_reference base_size aspect_ratios scales =
        Except.error "base_size is too small for aspect_ratios and scales." := by
      simp only [generate_anchors_reference]
      exact if_pos hdeg
    refine ⟨⟨fun _ => (anchorsDegenerate_iff _ _ _).mp hdeg, fun _ => ⟨_, herr⟩⟩, ?_⟩
    intro hn
    exact absurd ((anchorsDegenerate_iff _ _ _).mp hdeg) hn
  · have hok : generate_anchors_reference base_size aspect_ratios scales =
        Except.ok (anchors_of base_size aspect_ratios scales) := by
      simp only [generate_anchors_reference]
      exact if_neg hdeg
    refine ⟨⟨?_, ?_⟩, fun _ => hok⟩
    · rintro ⟨e, he⟩
      rw [hok] at he
      exact absurd he (by simp)
    · intro hcond
      exact absurd ((anchorsDegenerate_iff _ _ _).mpr hcond) hdeg

/-- Claim C3: the tiler outputs exactly `height * width * R` anchors in
shift-major, reference-anchor-minor order: anchor `m` is reference anchor
`m % R` translated by shift `m / R`, where shift `k` is
`((k % width) * stride, (k / width) * stride)` (row-major, `y` varying
slower); and for a nonempty grid the first `R` entries are the reference
set itself. -/
theorem tile_anchors_spec (reference : List (Box α)) (height width : ℕ)
    (stride : α) :
    (tile_anchors reference height width stride).length =
        height * width * reference.length ∧
      (∀ m a, reference[m % reference.length]? = some a →
        m < height * width * reference.length →
        (tile_anchors reference height width stride)[m]? =
          some (translateBox a
            (((m / reference.length % width : ℕ) : α) * stride,
              ((m / reference.length / width : ℕ) : α) * stride))) ∧
      (0 < height → 0 < width →
        (tile_anchors reference height width stride).take reference.length =
          reference) := by
  have hshiftlen : (shiftsFor height width stride).length = height * width := by
    rw [shiftsFor, length_flatMap_uniform _ _ width
      (fun b _ => by rw [List.length_map, List.length_range]), List.length_range]
  refine ⟨?_, ?_, ?_⟩
  · rw [tile_anchors, length_flatMap_uniform _ _ reference.length
      (fun s _ => by rw [List.length_map]), hshiftlen]
  · intro m a ha hm
    have hR : 0 < reference.length := by
      have := (List.getElem?_eq_some.mp ha).1
      omega
    have hmod : m % reference.length < reference.length := Nat.mod_lt _ hR
    have hdiv : m / reference.length < height * width := by
      rw [Nat.div_lt_iff_lt_mul hR]
      exact hm
    have hm' : m / reference.length * reference.length + m % reference.length =
        m := by
      rw [Nat.mul_comm]
      exact Nat.div_add_mod m reference.length
    conv_lhs => rw [← hm']
    rw [tile_anchors,
      flatMap_getElem?_uniform _ _ reference.length
        (fun s _ => by rw [List.length_map]) _ _ hmod,
      shiftsFor_getElem? height width stride _ hdiv, Option.some_bind,
      List.getElem?_map, ha, Option.map_some']
  · intro hH hW
    obtain ⟨H', rfl⟩ : ∃ H', height = H' + 1 := ⟨height - 1, by omega⟩
    obtain ⟨W', rfl⟩ : ∃ W', width = W' + 1 := ⟨width - 1, by omega⟩
    simp only [tile_anchors, shiftsFor, List.range_succ_eq_map, List.flatMap_cons,
      List.map_cons, List.cons_append, Nat.cast_zero, zero_mul, translateBox,
      add_zero]
    rw [show (fun (a : Box α) => Box.mk a.x1 a.y1 a.x2 a.y2) = fun a => a from
      rfl, List.map_id']
    exact List.take_left _ _

/-- Witness for C3: a 2-anchor reference set tiled over a 2×3 grid with
stride 16; anchor 7 is reference anchor `7 % 2 = 1` shifted by shift
`7 / 2 = 3`, i.e. `(x, y) = ((3 % 3) * 16, (3 / 3) * 16) = (0, 16)`. -/
theorem tile_anchors_spec_witness :
    (tile_anchors [Box.mk (0 : ℚ) 0 1 1, Box.mk (5 : ℚ) 5 6 6] 2 3 16)[7]? =
      some (translateBox (Box.mk (5 : ℚ) 5 6 6)
        (((7 / 2 % 3 : ℕ) : ℚ) * 16, ((7 / 2 / 3 : ℕ) : ℚ) * 16)) :=
  (tile_anchors_spec [Box.mk (0 : ℚ) 0 1 1, Box.mk (5 : ℚ) 5 6 6] 2 3 16).2.1 7
    (Box.mk (5 : ℚ) 5 6 6) rfl (by norm_num)

/-- Claim C6: every anchor surviving the boundary filter lies inside the
image; the filtered anchors are a sublist (stable mask selection) of the
input; and the same mask is applied to the offset and score rows, so the
i-th kept anchor is paired with the i-th kept offset row and score coming
from the same original row. -/
theorem filter_outside_anchors_spec (all_anchors : List (Box α))
    (rpn_bbox_pred : List (Delta α)) (all_scores : List α)
    (im_height im_width : α)
    (hp : rpn_bbox_pred.length = all_anchors.length)
    (hs : all_scores.length = all_anchors.length) :
    (∀ a ∈ (filter_outside_anchors all_anchors rpn_bbox_pred all_scores
        im_height im_width).1,
      0 ≤ a.x1 ∧ 0 ≤ a.y1 ∧ a.x2 < im_width ∧ a.y2 < im_height) ∧
      ((filter_outside_anchors all_anchors rpn_bbox_pred all_scores
        im_height im_width).1.Sublist all_anchors) ∧
      ((filter_outside_anchors all_anchors rpn_bbox_pred all_scores
          im_height im_width).1.zip
        (filter_outside_anchors all_anchors rpn_bbox_pred all_scores
          im_height im_width).2.1 =
        (all_anchors.zip rpn_bbox_pred).filter
          (fun p => insideImage im_height im_width p.1)) ∧
      ((filter_outside_anchors all_anchors rpn_bbox_pred all_scores
          im_height im_width).1.zip
        (filter_outside_anchors all_anchors rpn_bbox_pred all_scores
          im_height im_width).2.2 =
        (all_anchors.zip all_scores).filter
          (fun p => insideImage im_height im_width p.1)) := by
  have h1 : (filter_outside_anchors all_anchors rpn_bbox_pred all_scores
      im_height im_width).1 =
      all_anchors.filter (fun a => insideImage im_height im_width a) :=
    booleanMask_map_filter all_anchors _
  refine ⟨?_, ?_, ?_, ?_⟩
  · intro a ha
    rw [h1] at ha
    have hmem := (List.mem_filter.mp ha).2
    simp only [insideImage, Bool.and_eq_true, decide_eq_true_eq] at hmem
    tauto
  · rw [h1]
    exact List.filter_sublist _
  · exact booleanMask_zip _ all_anchors rpn_bbox_pred hp
  · exact booleanMask_zip _ all_anchors all_scores hs

/-- Witness for C6: out of two anchors in a 5×5 image, the second
(`x_min = -1`) is dropped together with its offset row; the kept
anchor/offset pairs equal the filter of the zipped rows. -/
theorem filter_outside_anchors_spec_witness :
    (filter_outside_anchors [Box.mk (0 : ℚ) 0 1 1, Box.mk (-1 : ℚ) 0 1 1]
        [Delta.mk (1 : ℚ) 1 1 1, Delta.mk (2 : ℚ) 2 2 2] [(3 : ℚ), 4] 5 5).1.zip
      (filter_outside_anchors [Box.mk (0 : ℚ) 0 1 1, Box.mk (-1 : ℚ) 0 1 1]
        [Delta.mk (1 : ℚ) 1 1 1, Delta.mk (2 : ℚ) 2 2 2] [(3 : ℚ), 4] 5 5).2.1 =
      ([Box.mk (0 : ℚ) 0 1 1, Box.mk (-1 : ℚ) 0 1 1].zip
        [Delta.mk (1 : ℚ) 1 1 1, Delta.mk (2 : ℚ) 2 2 2]).filter
        (fun p => insideImage 5 5 p.1) :=
  (filter_outside_anchors_spec [Box.mk (0 : ℚ) 0 1 1, Box.mk (-1 : ℚ) 0 1 1]
    [Delta.mk (1 : ℚ) 1 1 1, Delta.mk (2 : ℚ) 2 2 2] [(3 : ℚ), 4] 5 5
    rfl rfl).2.2.1

/-- Claim C2: any two distinct proposals in the final output of the
proposal pipeline have IoU (inclusive convention) strictly below
`nms_threshold`. -/
theorem nms_accepted_iou_lt (P : List (Box α)) (S : List α) (i j : ℕ)
    (p q : Box α) (hp : (proposalSelect P S).1[i]? = some p)
    (hq : (proposalSelect P S).1[j]? = some q) (hij : i ≠ j) :
    iou p q < nms_threshold :=
  nmsStage_iou _ _ i j p q hp hq hij

/-- Witness for C2: two disjoint boxes with scores 1 and 0 are both
accepted; their IoU is 0 < 0.7. -/
theorem nms_accepted_iou_lt_witness :
    iou (Box.mk (0 : ℚ) 0 1 1) (Box.mk (10 : ℚ) 10 11 11) < nms_threshold :=
  nms_accepted_iou_lt [Box.mk (0 : ℚ) 0 1 1, Box.mk (10 : ℚ) 10 11 11]
    [(1 : ℚ), 0] 0 1 (Box.mk (0 : ℚ) 0 1 1) (Box.mk (10 : ℚ) 10 11 11)
    (by norm_num [proposalSelect, top_k, nmsStage, non_max_suppression, nmsGo,
      sortDesc, insertDesc, gather, iou, change_order, pre_nms_top_n,
      post_nms_top_n, nms_threshold, List.enum, List.enumFrom, max_def, min_def])
    (by norm_num [proposalSelect, top_k, nmsStage, non_max_suppression, nmsGo,
      sortDesc, insertDesc, gather, iou, change_order, pre_nms_top_n,
      post_nms_top_n, nms_threshold, List.enum, List.enumFrom, max_def, min_def])
    (by norm_num)

/-- Claim C7: the pipeline outputs at most
`min(post_nms_top_n, pre_nms_top_n, #candidates)` proposals; the top-k
stage keeps exactly `min(pre_nms_top_n, #candidates)` scores (no error on
short input); and zero candidates yield the empty output, not an error. -/
theorem proposal_count_bound (P : List (Box α)) (S : List α) :
    (proposalSelect P S).1.length ≤
        min post_nms_top_n (min pre_nms_top_n S.length) ∧
      (top_k S (min pre_nms_top_n S.length)).1.length =
        min pre_nms_top_n S.length ∧
      (S = [] → proposalSelect P S = ([], [])) := by
  have htk : (top_k S (min pre_nms_top_n S.length)).1.length =
      min pre_nms_top_n S.length := by
    show (((sortDesc S.enum).map (fun p => p.2)).take
        (min pre_nms_top_n S.length)).length = min pre_nms_top_n S.length
    rw [List.length_take, List.length_map, length_sortDesc, List.enum_length]
    omega
  refine ⟨?_, htk, ?_⟩
  · have h := nmsStage_fst_length
      (gather P (top_k S (min pre_nms_top_n S.length)).2 ⟨0, 0, 0, 0⟩)
      (top_k S (min pre_nms_top_n S.length)).1
    have heq : (proposalSelect P S).1.length =
        (nmsStage (gather P (top_k S (min pre_nms_top_n S.length)).2 ⟨0, 0, 0, 0⟩)
          (top_k S (min pre_nms_top_n S.length)).1).1.length := rfl
    rw [heq, htk] at *
    rw [htk] at h
    omega
  · intro hS
    subst hS
    rfl

/-- Witness for C7: the empty candidate set yields the empty output. -/
theorem proposal_count_bound_witness :
    proposalSelect ([] : List (Box ℚ)) ([] : List ℚ) = ([], []) :=
  (proposal_count_bound ([] : List (Box ℚ)) []).2.2 rfl

/-- Claim C10: `change_order` is an involution on box arrays, and hence
every proposal in the output of the NMS stage (which applies
`change_order` before and after suppression) is exactly a row of the
sorted pre-NMS proposal array in the original coordinate order. -/
theorem change_order_involution (l : List (Box α)) (S : List α) (p : Box α)
    (hlen : S.length = l.length) (hp : p ∈ (nmsStage l S).1) :
    ((l.map change_order).map change_order = l) ∧ p ∈ l := by
  constructor
  · rw [List.map_map]
    rw [show (change_order ∘ change_order : Box α → Box α) = id from rfl,
      List.map_id]
  · exact nmsStage_mem l S hlen p hp

/-- Witness for C10: a single box survives the NMS stage and is returned
unchanged; the double order swap is the identity. -/
theorem change_order_involution_witness :
    (([Box.mk (0 : ℚ) 0 1 1].map change_order).map change_order =
        [Box.mk (0 : ℚ) 0 1 1]) ∧
      Box.mk (0 : ℚ) 0 1 1 ∈ [Box.mk (0 : ℚ) 0 1 1] :=
  change_order_involution [Box.mk (0 : ℚ) 0 1 1] [(1 : ℚ)] (Box.mk (0 : ℚ) 0 1 1)
    rfl
    (by norm_num [nmsStage, non_max_suppression, nmsGo, sortDesc, insertDesc,
      gather, change_order, post_nms_top_n, nms_threshold, List.enum,
      List.enumFrom])

end RPN
